import Mathlib

/-!
Shallow embedding of the Morse decoder core (`src/morse_decoder.rs`).

Timestamps (`SystemTime`) are modelled as natural numbers of milliseconds.
`SystemTime::duration_since(earlier)` returns `Err` when `earlier` is later
than `self`, and the source calls `.unwrap()` on it, so the embedded `tick`
returns `none` (modelling the panic) exactly when the clock went backwards.
The `as u64` cast of `Duration::as_millis` truncates modulo `2^64`.
-/

namespace Morse

/-- `2^64`, the modulus of a Rust `u64`. -/
def U64 : Nat := 18446744073709551616

/-- `u64::MAX`, the sentinel duration marking an unwritten ring slot. -/
def u64MAX : Nat := 18446744073709551615

/-- The `Code` enum: `Short` is the letter gap, `Long` the word gap. -/
inductive Code where
  | Dit
  | Dah
  | Short
  | Long
deriving DecidableEq

/-- `Code::display_code_string`: Dit→'.', Dah→'-', Short→' ', Long→'\n'. -/
def display_code_string (code_string : List Code) : String :=
  String.mk (code_string.filterMap (fun code =>
    match code with
    | Code.Dit => some '.'
    | Code.Dah => some '-'
    | Code.Short => some ' '
    | Code.Long => some '\n'))

/-- `DecoderSettings`: `dit_dah` = dit/dah threshold, `letter` = letter-gap
threshold, `letter_word` = word-gap threshold (all ms). -/
structure DecoderSettings where
  dit_dah : Nat
  letter : Nat
  letter_word : Nat
deriving DecidableEq

/-- `MorseDecoder`: 128-slot ring of `(duration_ms, is_rising)` records,
write index, time of last transition, last sampled level. -/
structure MorseDecoder where
  ring : List (Nat × Bool)
  index : Nat
  last_time : Nat
  last_on : Bool
deriving DecidableEq

/-- The freshly initialised ring: 128 sentinel slots `(u64::MAX, false)`. -/
def initRing : List (Nat × Bool) := List.replicate 128 (u64MAX, false)

/-- `MorseDecoder::new()` at wall-clock time `now`. -/
def MorseDecoder.new (now : Nat) : MorseDecoder :=
  { ring := initRing, index := 0, last_time := now, last_on := false }

/-- `MorseDecoder::reset()` called at wall-clock time `now`. -/
def reset (_s : MorseDecoder) (now : Nat) : MorseDecoder :=
  { ring := initRing, index := 0, last_time := now, last_on := false }

/-- `MorseDecoder::tick(on)` called at wall-clock time `now`.
`none` models the panic of `duration_since(..).unwrap()` when the clock
went backwards (`now < last_time`). -/
def tick (s : MorseDecoder) (now : Nat) (lvl : Bool) : Option MorseDecoder :=
  if s.last_on ≠ lvl then
    if now < s.last_time then none
    else
      some { ring := s.ring.set ((s.index + 1) % 128) ((now - s.last_time) % U64, lvl)
           , index := (s.index + 1) % 128
           , last_time := now
           , last_on := lvl }
  else some s

/-- Run a sequence of `tick` calls, each given as `(now, level)`. -/
def runTicks (s : MorseDecoder) : List (Nat × Bool) → Option MorseDecoder
  | [] => some s
  | (now, lvl) :: rest => (tick s now lvl).bind (fun s1 => runTicks s1 rest)

/-- The body of the `decode` loop for one ring slot: the codes pushed for
that slot (empty for sentinels and intra-character gaps). -/
def classifySlot (slot : Nat × Bool) (settings : DecoderSettings) : List Code :=
  if slot.1 = u64MAX then []
  else if slot.2 then
    if slot.1 < settings.letter then []
    else if slot.1 < settings.letter_word then [Code.Short]
    else [Code.Long]
  else
    if slot.1 < settings.dit_dah then [Code.Dit]
    else [Code.Dah]

/-- The index sequence of the `decode` loop:
`(((index + 1) % 128)..128).chain(0..=index)`. -/
def decodeOrder (index : Nat) : List Nat :=
  List.range' ((index + 1) % 128) (128 - (index + 1) % 128) ++ List.range (index + 1)

/-- `MorseDecoder::decode(settings)`. -/
def decode (s : MorseDecoder) (settings : DecoderSettings) : List Code :=
  (decodeOrder s.index).flatMap
    (fun i => classifySlot (s.ring.getD i (u64MAX, false)) settings)

/-- Rust `format!("{:05}", n)`: decimal, left-padded with zeros to width 5. -/
def fmt05 (n : Nat) : String :=
  let s := toString n
  if s.length < 5 then String.mk (List.replicate (5 - s.length) '0') ++ s else s

/-- Rust `v.sort(); v.reverse();`: the descending reordering of a list.
`Vec::sort` is a stable ascending sort; on `Nat` its result is the unique
ascending reordering, here given by insertion sort. -/
def sortDesc (l : List Nat) : List Nat :=
  (List.insertionSort (· ≤ ·) l).reverse

/-- The `mark_times` vector of `display`: durations of non-sentinel
falling-edge records (on-periods), sorted descending. -/
def mark_times (s : MorseDecoder) : List Nat :=
  sortDesc (s.ring.filterMap (fun x => if x.1 ≠ u64MAX ∧ x.2 = false then some x.1 else none))

/-- The `gap_times` vector of `display`: durations of non-sentinel
rising-edge records (off-periods), sorted descending. -/
def gap_times (s : MorseDecoder) : List Nat :=
  sortDesc (s.ring.filterMap (fun x => if x.1 ≠ u64MAX ∧ x.2 = true then some x.1 else none))

/-- The header of the diagnostic table. -/
def displayHeader : String := "Durations (ms)\nMarks Gaps\n----- -----"

/-- A row of the diagnostic table showing a mark and a gap duration. -/
def bothRow (mt gt : List Nat) (i : Nat) : String :=
  "\n" ++ fmt05 (mt.getD i 0) ++ " " ++ fmt05 (gt.getD i 0)

/-- A row of the diagnostic table showing only a mark duration. -/
def markRow (mt : List Nat) (i : Nat) : String :=
  "\n" ++ fmt05 (mt.getD i 0)

/-- A row of the diagnostic table showing only a gap duration, with the mark
column blank. -/
def gapRow (gt : List Nat) (i : Nat) : String :=
  "\n      " ++ fmt05 (gt.getD i 0)

/-- The rendering part of `MorseDecoder::display` over the two sorted
duration vectors: paired rows for `0..min`, then the excess rows of the
longer column. -/
def displayOf (mt gt : List Nat) : String :=
  if mt.length > gt.length then
    (List.range' gt.length (mt.length - gt.length)).foldl (fun t i => t ++ markRow mt i)
      ((List.range (min mt.length gt.length)).foldl (fun t i => t ++ bothRow mt gt i)
        displayHeader)
  else
    (List.range' mt.length (gt.length - mt.length)).foldl (fun t i => t ++ gapRow gt i)
      ((List.range (min mt.length gt.length)).foldl (fun t i => t ++ bothRow mt gt i)
        displayHeader)

/-- `MorseDecoder::display()`. -/
def display (s : MorseDecoder) : String :=
  displayOf (mark_times s) (gap_times s)

/-- An operation of the single-threaded driver loop. -/
inductive Op where
  | opTick (now : Nat) (lvl : Bool)
  | opReset (now : Nat)
  | opDecode (settings : DecoderSettings)
  | opDisplay
deriving DecidableEq

/-- The observable output of one operation. -/
inductive Out where
  | unit
  | codes (cs : List Code)
  | text (t : String)
deriving DecidableEq

/-- Read-only operations: `decode` and `display` take `&self` in the
source, while `tick` and `reset` take `&mut self`. -/
def readOnly : Op → Bool
  | Op.opDecode _ => true
  | Op.opDisplay => true
  | _ => false

/-- The output an operation produces when run against state `s`. -/
def outOf (s : MorseDecoder) : Op → Out
  | Op.opTick _ _ => Out.unit
  | Op.opReset _ => Out.unit
  | Op.opDecode settings => Out.codes (decode s settings)
  | Op.opDisplay => Out.text (display s)

/-- One step of the driver loop. `decode` and `display` borrow the decoder
immutably (`&self`) and leave it unchanged; `tick` may panic (`none`). -/
def step (s : MorseDecoder) : Op → Option (MorseDecoder × Out)
  | Op.opTick now lvl => (tick s now lvl).map (fun s1 => (s1, Out.unit))
  | Op.opReset now => some (reset s now, Out.unit)
  | Op.opDecode settings => some (s, Out.codes (decode s settings))
  | Op.opDisplay => some (s, Out.text (display s))

/-- Run a list of operations, collecting the outputs. -/
def runOps (s : MorseDecoder) : List Op → Option (MorseDecoder × List Out)
  | [] => some (s, [])
  | op :: rest =>
    (step s op).bind (fun p =>
      (runOps p.1 rest).map (fun q => (q.1, p.2 :: q.2)))

/-- A well-formed synthetic tick sequence against previous time `t` and
level `l`: every call flips the level and carries a non-decreasing
timestamp (so no `duration_since` panic occurs). -/
def validRun : Nat → Bool → List (Nat × Bool) → Bool
  | _, _, [] => true
  | t, l, (now, lvl) :: rest => (lvl != l) && Nat.ble t now && validRun now lvl rest

/-- The transition records a tick sequence produces, given the previous
transition time `t`: duration `(now - t) mod 2^64` and the new level. -/
def recsOf : Nat → List (Nat × Bool) → List (Nat × Bool)
  | _, [] => []
  | t, (now, lvl) :: rest => ((now - t) % U64, lvl) :: recsOf now rest

/-- Write a list of records into the ring in strict circular order,
starting at the slot after write index `k` (exactly as `tick` does). -/
def writeSeq : List (Nat × Bool) → Nat → List (Nat × Bool) → List (Nat × Bool)
  | ring, _, [] => ring
  | ring, k, r :: rest => writeSeq (ring.set ((k + 1) % 128) r) ((k + 1) % 128) rest

/-- The write index after `n` transitions starting from index `k`. -/
def idxAfter : Nat → Nat → Nat
  | k, 0 => k
  | k, n + 1 => idxAfter ((k + 1) % 128) n

/-- The last transition time after a tick sequence. -/
def endTime : Nat → List (Nat × Bool) → Nat
  | t, [] => t
  | _, (now, _) :: rest => endTime now rest

/-- The last level after a tick sequence. -/
def endOn : Bool → List (Nat × Bool) → Bool
  | l, [] => l
  | _, (_, lvl) :: rest => endOn lvl rest

/-- Row `i` of the diagnostic table as the spec describes it: two aligned
columns over `max` rows, the shorter column padded with blanks. -/
def specRow (mt gt : List Nat) (i : Nat) : String :=
  if i < mt.length ∧ i < gt.length then bothRow mt gt i
  else if i < mt.length then markRow mt i
  else gapRow gt i

/-- The diagnostic table as the spec describes it: the header followed by
one row per index below the length of the longer column. -/
def specView (mt gt : List Nat) : String :=
  displayHeader ++
    String.join ((List.range (max mt.length gt.length)).map (specRow mt gt))

end Morse

namespace Morse

/-- A sentinel slot contributes no token, whatever its recorded level. -/
theorem classifySlot_sentinel (b : Bool) (settings : DecoderSettings) :
    classifySlot (u64MAX, b) settings = [] := by
  simp [classifySlot]

/-- Every slot of the freshly initialised ring reads as the sentinel. -/
theorem initRing_getD (i : Nat) : initRing.getD i (u64MAX, false) = (u64MAX, false) := by
  simp only [initRing, List.getD_eq_getElem?_getD, List.getElem?_replicate]
  split <;> rfl

/-- C6: for every state and every level equal to the current `last_on`,
`tick` is a no-op: the ring, write index, `last_on` and `last_time` are all
unchanged, no record is appended, and no panic is possible. -/
theorem tick_same_level_noop (s : MorseDecoder) (now : Nat) :
    tick s now s.last_on = some s := by
  simp [tick]

/-- C1 counterexample: the spec claims `tick` clamps a negative clock delta
to a zero-duration record and never fails; in the code
`now.duration_since(self.last_time).unwrap()` panics when the clock went
backwards. Concretely, from a fresh decoder created at time 10, a rising
tick at the earlier time 5 panics (modelled as `none`) instead of recording
a zero-duration transition. -/
theorem tick_panics_on_backwards_clock :
    tick (MorseDecoder.new 10) 5 true = none := by decide

/-- C1 amended: when the level changes, `tick` records duration
`(now - last_time) mod 2^64` at slot `(index+1) % 128` provided the clock
did not go backwards; when `now < last_time` it panics
(`duration_since(..).unwrap()`), modelled as `none` — there is no clamping
to zero. -/
theorem tick_duration_law (s : MorseDecoder) (now : Nat) (lvl : Bool)
    (h : s.last_on ≠ lvl) :
    (s.last_time ≤ now →
      tick s now lvl = some
        { ring := s.ring.set ((s.index + 1) % 128) ((now - s.last_time) % U64, lvl)
        , index := (s.index + 1) % 128
        , last_time := now
        , last_on := lvl }) ∧
    (now < s.last_time → tick s now lvl = none) := by
  constructor
  · intro hle
    rw [tick, if_pos h, if_neg (by omega)]
  · intro hlt
    rw [tick, if_pos h, if_pos hlt]

/-- Witness for the amended C1 law at a concrete input. -/
theorem tick_duration_law_witness :
    tick (MorseDecoder.new 0) 5 true =
      some { ring := initRing.set 1 (5, true), index := 1, last_time := 5, last_on := true } := by
  have h := (tick_duration_law (MorseDecoder.new 0) 5 true (by decide)).1 (by decide)
  exact h.trans (by decide)

set_option maxRecDepth 100000 in
/-- C4: end-to-end scenario. From `reset` at time 1000, edges at relative
deltas 50(→ON), 100(→OFF), 120(→ON), 350(→OFF), 600(→ON), 90(→OFF),
2200(→ON) with settings `{dit_dah:300, letter:500, letter_word:2000}`
decode to `[Dit, Dah, Short, Dit, Long]` (`Short` is the letter gap, `Long`
the word gap), and `display_code_string` renders that as `".- .\n"`. -/
theorem end_to_end_scenario :
    (runTicks (MorseDecoder.new 1000)
        [(1050, true), (1150, false), (1270, true), (1620, false),
         (2220, true), (2310, false), (4510, true)]).map
      (fun s => decode s { dit_dah := 300, letter := 500, letter_word := 2000 })
      = some [Code.Dit, Code.Dah, Code.Short, Code.Dit, Code.Long] ∧
    display_code_string [Code.Dit, Code.Dah, Code.Short, Code.Dit, Code.Long] = ".- .\n" := by
  constructor
  · decide
  · decide

/-- C3: every non-sentinel record is classified by strict less-than
comparisons, for every settings value (misconfigured thresholds included):
a gap (`is_rising = true`) below `letter` emits nothing, else below
`letter_word` emits `Short` (the letter gap), else `Long` (the word gap);
a mark below `dit_dah` emits `Dit`, else `Dah`. Hence a duration exactly
equal to a threshold falls into the longer category: a mark of exactly
`dit_dah` is a `Dah`, a gap of exactly `letter` is a `Short` (when the
`letter < letter_word` branch is reachable), and a gap of exactly
`letter_word` is a `Long` (when `letter ≤ letter_word`). The final conjunct
records that `decode` applies exactly this per-slot classification. -/
theorem classify_strict_lt_law (st : DecoderSettings) (d : Nat) (b : Bool)
    (hd : d ≠ u64MAX) :
    (classifySlot (d, b) st =
      if b then
        if d < st.letter then []
        else if d < st.letter_word then [Code.Short]
        else [Code.Long]
      else
        if d < st.dit_dah then [Code.Dit]
        else [Code.Dah]) ∧
    (st.dit_dah ≠ u64MAX → classifySlot (st.dit_dah, false) st = [Code.Dah]) ∧
    (st.letter ≠ u64MAX → st.letter < st.letter_word →
      classifySlot (st.letter, true) st = [Code.Short]) ∧
    (st.letter_word ≠ u64MAX → st.letter ≤ st.letter_word →
      classifySlot (st.letter_word, true) st = [Code.Long]) ∧
    (b = true → d < st.letter → classifySlot (d, b) st = []) ∧
    (∀ s : MorseDecoder, decode s st =
      (decodeOrder s.index).flatMap
        (fun i => classifySlot (s.ring.getD i (u64MAX, false)) st)) := by
  refine ⟨?_, ?_, ?_, ?_, ?_, fun s => rfl⟩
  · rw [classifySlot, if_neg hd]
  · intro h
    rw [classifySlot, if_neg h]
    simp
  · intro h hlt
    rw [classifySlot, if_neg h]
    simp [hlt]
  · intro h hle
    rw [classifySlot, if_neg h]
    simp [Nat.not_lt.mpr hle]
  · intro hb hlt
    subst hb
    rw [classifySlot, if_neg hd]
    simp [hlt]

/-- Witness for the classification law at the default settings
`{dit_dah:300, letter:500, letter_word:2000}`: the three boundary durations
and a short gap, classified concretely. -/
theorem classify_strict_lt_law_witness :
    classifySlot (300, false) ⟨300, 500, 2000⟩ = [Code.Dah] ∧
    classifySlot (500, true) ⟨300, 500, 2000⟩ = [Code.Short] ∧
    classifySlot (2000, true) ⟨300, 500, 2000⟩ = [Code.Long] ∧
    classifySlot (100, true) ⟨300, 500, 2000⟩ = [] := by
  have h := classify_strict_lt_law ⟨300, 500, 2000⟩ 100 true (by decide)
  exact ⟨h.2.1 (by decide), h.2.2.1 (by decide) (by decide),
    h.2.2.2.1 (by decide) (by decide), h.2.2.2.2.1 rfl (by decide)⟩

set_option maxRecDepth 100000 in
/-- C2 is the intended behaviour, but the code deviates at write index 127:
`(((index + 1) % 128)..128).chain(0..=index)` degenerates to
`(0..128).chain(0..=127)`, visiting every slot twice, so every retained
record contributes its token twice. First conjunct: index 127 is reachable
(127 alternating transitions from reset land the write index there).
Second conjunct: with index 127 and a single non-sentinel mark of 100 ms,
`decode` returns `[Dit, Dit]` instead of `[Dit]`. Third conjunct: at any
other index (e.g. 126 here) the same ring decodes to `[Dit]` once, as the
claim states. -/
theorem decode_double_visit_at_index_127 :
    (runTicks (MorseDecoder.new 0)
        ((List.range 127).map (fun k => (k + 1, decide (k % 2 = 0))))).map
      MorseDecoder.index = some 127 ∧
    decode { ring := initRing.set 5 (100, false), index := 127, last_time := 0, last_on := false }
      ⟨300, 500, 2000⟩ = [Code.Dit, Code.Dit] ∧
    decode { ring := initRing.set 5 (100, false), index := 126, last_time := 0, last_on := false }
      ⟨300, 500, 2000⟩ = [Code.Dit] := by
  refine ⟨by decide, by decide, by decide⟩

/-- C7: immediately after `reset()` (all slots sentinel, index 0), `decode`
returns the empty token sequence for every settings value and `display`
shows the bare header with no duration rows. -/
theorem reset_decode_empty (s : MorseDecoder) (t : Nat) (settings : DecoderSettings) :
    decode (reset s t) settings = [] ∧
    display (reset s t) = "Durations (ms)\nMarks Gaps\n----- -----" := by
  constructor
  · rw [decode, List.flatMap_eq_nil_iff]
    intro x _
    show classifySlot ((reset s t).ring.getD x (u64MAX, false)) settings = []
    rw [show (reset s t).ring = initRing from rfl, initRing_getD, classifySlot_sentinel]
  · have hm : mark_times (reset s t) = [] := by
      rw [mark_times, show (reset s t).ring = initRing from rfl, initRing]
      rw [List.filterMap_replicate]
      simp [sortDesc]
    have hg : gap_times (reset s t) = [] := by
      rw [gap_times, show (reset s t).ring = initRing from rfl, initRing]
      rw [List.filterMap_replicate]
      simp [sortDesc]
    rw [display, hm, hg]
    rfl


/-- C8: `decode` and `display` are pure, read-only, deterministic functions
of the current snapshot: any run consisting only of read-only operations
(`decode`/`display`, the `&self` methods) leaves the decoder state exactly
as it was and produces outputs that are a function of that one state, so
repeated calls with no intervening `tick`/`reset` return identical
results. -/
theorem decode_display_pure (s : MorseDecoder) (ops : List Op)
    (h : ∀ op ∈ ops, readOnly op = true) :
    runOps s ops = some (s, ops.map (outOf s)) := by
  induction ops with
  | nil => rfl
  | cons op rest ih =>
    have hop := h op (List.mem_cons_self op rest)
    have hrest : ∀ o ∈ rest, readOnly o = true := fun o ho => h o (List.mem_cons_of_mem op ho)
    cases op with
    | opTick now lvl => simp [readOnly] at hop
    | opReset now => simp [readOnly] at hop
    | opDecode settings => simp [runOps, step, ih hrest, outOf]
    | opDisplay => simp [runOps, step, ih hrest, outOf]

set_option maxRecDepth 100000 in
/-- Witness for purity: two `decode` calls and two `display` calls against
a fresh decoder leave it unchanged and return pairwise identical outputs. -/
theorem decode_display_pure_witness :
    runOps (MorseDecoder.new 0)
      [Op.opDecode ⟨300, 500, 2000⟩, Op.opDecode ⟨300, 500, 2000⟩, Op.opDisplay, Op.opDisplay]
      = some (MorseDecoder.new 0,
          [Out.codes [], Out.codes [],
           Out.text "Durations (ms)\nMarks Gaps\n----- -----",
           Out.text "Durations (ms)\nMarks Gaps\n----- -----"]) := by
  have h := decode_display_pure (MorseDecoder.new 0)
    [Op.opDecode ⟨300, 500, 2000⟩, Op.opDecode ⟨300, 500, 2000⟩, Op.opDisplay, Op.opDisplay]
    (by decide)
  exact h.trans (by decide)

/-- Reading a slot just written. -/
theorem getD_set_self {α : Type} (l : List α) (i : Nat) (a d : α) (h : i < l.length) :
    (l.set i a).getD i d = a := by
  rw [List.getD_eq_getElem?_getD, List.getElem?_set_self h]
  rfl

/-- Writing one slot leaves every other slot unchanged. -/
theorem getD_set_ne {α : Type} (l : List α) (i j : Nat) (a d : α) (h : i ≠ j) :
    (l.set i a).getD j d = l.getD j d := by
  rw [List.getD_eq_getElem?_getD, List.getElem?_set_ne h, ← List.getD_eq_getElem?_getD]

/-- `writeSeq` preserves the ring length. -/
theorem writeSeq_length (recs : List (Nat × Bool)) : ∀ (ring : List (Nat × Bool)) (k : Nat),
    (writeSeq ring k recs).length = ring.length := by
  induction recs with
  | nil => intro ring k; rfl
  | cons r rest ih =>
    intro ring k
    show (writeSeq (ring.set ((k + 1) % 128) r) ((k + 1) % 128) rest).length = ring.length
    rw [ih, List.length_set]

/-- A slot hit by none of the writes of `writeSeq` keeps its old value. -/
theorem writeSeq_getD_of_ne (recs : List (Nat × Bool)) :
    ∀ (ring : List (Nat × Bool)) (k m : Nat),
    (∀ i, i < recs.length → (k + 1 + i) % 128 ≠ m) →
    (writeSeq ring k recs).getD m (u64MAX, false) = ring.getD m (u64MAX, false) := by
  induction recs with
  | nil => intro ring k m _; rfl
  | cons r rest ih =>
    intro ring k m h
    show (writeSeq (ring.set ((k + 1) % 128) r) ((k + 1) % 128) rest).getD m (u64MAX, false)
      = ring.getD m (u64MAX, false)
    rw [ih _ _ _ (fun i hi hc => h (i + 1) (by simpa using hi) (by omega))]
    exact getD_set_ne _ _ _ _ _ (by have := h 0 (by simp); omega)

/-- With at most 128 records, the `i`-th record of `writeSeq` ends up at
slot `(k + 1 + i) % 128` and stays there. -/
theorem writeSeq_getD (recs : List (Nat × Bool)) :
    ∀ (ring : List (Nat × Bool)) (k i : Nat),
    ring.length = 128 → recs.length ≤ 128 → i < recs.length →
    (writeSeq ring k recs).getD ((k + 1 + i) % 128) (u64MAX, false)
      = recs.getD i (u64MAX, false) := by
  induction recs with
  | nil => intro ring k i _ _ hi; simp at hi
  | cons r rest ih =>
    intro ring k i hlen hle hi
    cases i with
    | zero =>
      show (writeSeq (ring.set ((k + 1) % 128) r) ((k + 1) % 128) rest).getD
        ((k + 1 + 0) % 128) (u64MAX, false) = r
      rw [writeSeq_getD_of_ne rest _ _ _ (by
        intro j hj hc
        have hrest : rest.length ≤ 127 := by simpa using hle
        omega)]
      rw [show (k + 1 + 0) % 128 = (k + 1) % 128 by omega]
      exact getD_set_self _ _ _ _ (by rw [hlen]; exact Nat.mod_lt _ (by omega))
    | succ i =>
      have h1 := ih (ring.set ((k + 1) % 128) r) ((k + 1) % 128) i
        (by rw [List.length_set]; exact hlen) (by simpa using Nat.le_of_succ_le hle)
        (by simpa using hi)
      show (writeSeq (ring.set ((k + 1) % 128) r) ((k + 1) % 128) rest).getD
        ((k + 1 + (i + 1)) % 128) (u64MAX, false) = rest.getD i (u64MAX, false)
      rw [show (k + 1 + (i + 1)) % 128 = ((k + 1) % 128 + 1 + i) % 128 by omega]
      exact h1

/-- `idxAfter` is addition modulo 128. -/
theorem idxAfter_eq (n : Nat) : ∀ k, k < 128 → idxAfter k n = (k + n) % 128 := by
  induction n with
  | zero => intro k hk; show k = (k + 0) % 128; omega
  | succ n ih =>
    intro k hk
    show idxAfter ((k + 1) % 128) n = (k + (n + 1)) % 128
    rw [ih _ (Nat.mod_lt _ (by omega))]
    omega

/-- `recsOf` produces one record per tick call. -/
theorem recsOf_length (evs : List (Nat × Bool)) : ∀ t, (recsOf t evs).length = evs.length := by
  induction evs with
  | nil => intro t; rfl
  | cons ev rest ih =>
    intro t
    obtain ⟨now, lvl⟩ := ev
    show (((now - t) % U64, lvl) :: recsOf now rest).length = ((now, lvl) :: rest).length
    simp [ih]

/-- Running a well-formed tick sequence writes exactly `recsOf` into the
ring in strict circular order, advances the index one slot per transition,
and updates `last_time`/`last_on` to the final call. -/
theorem runTicks_writeSeq (evs : List (Nat × Bool)) : ∀ (s : MorseDecoder),
    validRun s.last_time s.last_on evs = true →
    runTicks s evs = some
      { ring := writeSeq s.ring s.index (recsOf s.last_time evs)
      , index := idxAfter s.index evs.length
      , last_time := endTime s.last_time evs
      , last_on := endOn s.last_on evs } := by
  induction evs with
  | nil => intro s _; rfl
  | cons ev rest ih =>
    intro s hv
    obtain ⟨now, lvl⟩ := ev
    have hv' : (lvl != s.last_on) = true ∧ Nat.ble s.last_time now = true ∧
        validRun now lvl rest = true := by
      have : ((lvl != s.last_on) && Nat.ble s.last_time now && validRun now lvl rest) = true := hv
      simpa [Bool.and_eq_true, and_assoc] using this
    have hne : s.last_on ≠ lvl := fun hc => by simp [hc] at hv'
    have hle : s.last_time ≤ now := Nat.le_of_ble_eq_true hv'.2.1
    show (tick s now lvl).bind (fun s1 => runTicks s1 rest) = _
    rw [tick, if_pos hne, if_neg (by omega)]
    rw [Option.some_bind]
    exact ih _ hv'.2.2

/-- C5: the ring retains at most the 128 most recent transitions. First
conjunct: every recording `tick` writes into the slot immediately following
the current write index, in strict circular order. Then, running any
well-formed alternating tick sequence from `reset`: the write index
advances to `N mod 128`; for `N ≤ 128` the ring holds exactly the `N`
records `(delta mod 2^64, level)` of the calls, at slots `(1+i) mod 128`,
all other slots still sentinel; and for `N = 129` the ring holds exactly
records `1..128` — record `0` sat in slot `1 = (1+128) mod 128`, which now
holds record `128`, so the first transition is irrecoverably
overwritten. -/
theorem ring_retention (t0 : Nat) (evs : List (Nat × Bool))
    (hv : validRun t0 false evs = true) :
    (∀ (s : MorseDecoder) (now : Nat) (lvl : Bool), s.last_on ≠ lvl → s.last_time ≤ now →
      tick s now lvl = some
        { ring := s.ring.set ((s.index + 1) % 128) ((now - s.last_time) % U64, lvl)
        , index := (s.index + 1) % 128, last_time := now, last_on := lvl }) ∧
    ∃ s1 : MorseDecoder,
      runTicks (MorseDecoder.new t0) evs = some s1 ∧
      s1.index = evs.length % 128 ∧
      s1.ring.length = 128 ∧
      (evs.length ≤ 128 →
        (∀ i, i < evs.length →
          s1.ring.getD ((1 + i) % 128) (u64MAX, false)
            = (recsOf t0 evs).getD i (u64MAX, false)) ∧
        (∀ j, j < 128 → (∀ i, i < evs.length → (1 + i) % 128 ≠ j) →
          s1.ring.getD j (u64MAX, false) = (u64MAX, false))) ∧
      (evs.length = 129 →
        ∀ i, 1 ≤ i → i < 129 →
          s1.ring.getD ((1 + i) % 128) (u64MAX, false)
            = (recsOf t0 evs).getD i (u64MAX, false)) := by
  constructor
  · intro s now lvl hne hle
    rw [tick, if_pos hne, if_neg (by omega)]
  · have hrun := runTicks_writeSeq evs (MorseDecoder.new t0) hv
    refine ⟨_, hrun, ?_, ?_, ?_, ?_⟩
    · show idxAfter 0 evs.length = evs.length % 128
      rw [idxAfter_eq evs.length 0 (by omega)]
      omega
    · show (writeSeq initRing 0 (recsOf t0 evs)).length = 128
      rw [writeSeq_length]
      simp [initRing]
    · intro hN
      constructor
      · intro i hi
        have h := writeSeq_getD (recsOf t0 evs) initRing 0 i (by simp [initRing])
          (by rw [recsOf_length]; exact hN) (by rw [recsOf_length]; exact hi)
        rw [show (1 + i) % 128 = (0 + 1 + i) % 128 by omega]
        exact h
      · intro j hj hne
        show (writeSeq initRing 0 (recsOf t0 evs)).getD j (u64MAX, false) = (u64MAX, false)
        rw [writeSeq_getD_of_ne (recsOf t0 evs) initRing 0 j (by
          intro i hi
          rw [recsOf_length] at hi
          have := hne i hi
          omega)]
        exact initRing_getD j
    · intro h129 i h1 hi
      have hlen : (recsOf t0 evs).length = 129 := by rw [recsOf_length]; exact h129
      obtain ⟨i', rfl⟩ : ∃ i', i = i' + 1 := ⟨i - 1, by omega⟩
      show (writeSeq initRing 0 (recsOf t0 evs)).getD ((1 + (i' + 1)) % 128) (u64MAX, false)
        = (recsOf t0 evs).getD (i' + 1) (u64MAX, false)
      cases hr : recsOf t0 evs with
      | nil => rw [hr] at hlen; simp at hlen
      | cons r0 rest =>
        rw [hr] at hlen
        have hrest : rest.length = 128 := by simpa using hlen
        show (writeSeq (initRing.set ((0 + 1) % 128) r0) ((0 + 1) % 128) rest).getD
          ((1 + (i' + 1)) % 128) (u64MAX, false) = (r0 :: rest).getD (i' + 1) (u64MAX, false)
        have h := writeSeq_getD rest (initRing.set ((0 + 1) % 128) r0) ((0 + 1) % 128) i'
          (by rw [List.length_set]; simp [initRing]) (by omega) (by omega)
        rw [show (1 + (i' + 1)) % 128 = ((0 + 1) % 128 + 1 + i') % 128 by omega]
        rw [h, List.getD_cons_succ]

/-- Witness for ring retention: two ticks at times 5 and 7 from a fresh
decoder at time 0 leave records `(5, true)` in slot 1 and `(2, false)` in
slot 2, index 2, slot 0 still sentinel. -/
theorem ring_retention_witness :
    ∃ s1 : MorseDecoder, runTicks (MorseDecoder.new 0) [(5, true), (7, false)] = some s1 ∧
      s1.index = 2 ∧
      s1.ring.getD 1 (u64MAX, false) = (5, true) ∧
      s1.ring.getD 2 (u64MAX, false) = (2, false) ∧
      s1.ring.getD 0 (u64MAX, false) = (u64MAX, false) := by
  obtain ⟨-, s1, hrun, hidx, hlen, hwin, -⟩ :=
    ring_retention 0 [(5, true), (7, false)] (by decide)
  obtain ⟨hrec, hsent⟩ := hwin (by decide)
  refine ⟨s1, hrun, ?_, ?_, ?_, ?_⟩
  · simpa using hidx
  · have h := hrec 0 (by decide)
    simpa [recsOf, U64] using h
  · have h := hrec 1 (by decide)
    simpa [recsOf, U64] using h
  · exact hsent 0 (by decide) (by decide)

/-- `sortDesc` is a permutation of its input. -/
theorem sortDesc_perm (l : List Nat) : (sortDesc l).Perm l :=
  (List.reverse_perm _).trans (List.perm_insertionSort _ l)

/-- `sortDesc` sorts descending. -/
theorem sortDesc_sorted (l : List Nat) : List.Sorted (· ≥ ·) (sortDesc l) := by
  rw [sortDesc, List.Sorted]
  rw [List.pairwise_reverse]
  simpa [ge_iff_le] using List.sorted_insertionSort (α := Nat) (· ≤ ·) l

/-- Folding string concatenation from an initial string joins the pieces. -/
theorem foldl_join (l : List String) : ∀ (t : String),
    l.foldl (· ++ ·) t = t ++ String.join l := by
  induction l with
  | nil =>
    intro t
    show t = t ++ String.join []
    rw [show String.join [] = "" from rfl, String.append_empty]
  | cons a l ih =>
    intro t
    show l.foldl (· ++ ·) (t ++ a) = t ++ String.join (a :: l)
    rw [ih, String.append_assoc]
    congr 1
    show a ++ String.join l = String.join (a :: l)
    rw [show String.join (a :: l) = l.foldl (· ++ ·) ("" ++ a) from rfl,
      ih ("" ++ a), String.empty_append]

/-- `String.join` of a cons. -/
theorem join_cons (a : String) (l : List String) :
    String.join (a :: l) = a ++ String.join l := by
  rw [show String.join (a :: l) = l.foldl (· ++ ·) ("" ++ a) from rfl,
    foldl_join, String.empty_append]

/-- `String.join` distributes over list append. -/
theorem join_append (a b : List String) :
    String.join (a ++ b) = String.join a ++ String.join b := by
  induction a with
  | nil => rw [List.nil_append, show String.join [] = "" from rfl, String.empty_append]
  | cons x a ih =>
    rw [List.cons_append, join_cons, join_cons, ih, String.append_assoc]

/-- Accumulating rows onto a string is the string followed by the joined
rows. -/
theorem foldl_rows {α : Type} (f : α → String) (xs : List α) : ∀ (t : String),
    xs.foldl (fun acc x => acc ++ f x) t = t ++ String.join (xs.map f) := by
  induction xs with
  | nil =>
    intro t
    show t = t ++ String.join []
    rw [show String.join [] = "" from rfl, String.append_empty]
  | cons x xs ih =>
    intro t
    show xs.foldl (fun acc x => acc ++ f x) (t ++ f x) = t ++ String.join (f x :: xs.map f)
    rw [ih, join_cons, String.append_assoc]

/-- `range n` splits at `a ≤ n` into `range a` and `range' a (n - a)`. -/
theorem range_split (a n : Nat) (h : a ≤ n) :
    List.range n = List.range a ++ List.range' a (n - a) := by
  have h2 := List.range'_append 0 a (n - a) 1
  simp only [Nat.zero_add, Nat.one_mul] at h2
  rw [show n - a + a = n from by omega] at h2
  rw [List.range_eq_range', List.range_eq_range' a, h2]

/-- The two-loop rendering of `display` equals the spec's single padded
two-column table. -/
theorem displayOf_eq_specView (mt gt : List Nat) : displayOf mt gt = specView mt gt := by
  rcases Nat.lt_or_ge gt.length mt.length with h | h
  · rw [displayOf, if_pos h, specView]
    rw [foldl_rows, foldl_rows, String.append_assoc]
    congr 1
    rw [Nat.min_eq_right h.le, Nat.max_eq_left h.le,
      range_split gt.length mt.length h.le, List.map_append, join_append]
    congr 2
    · apply List.map_congr_left
      intro i hi
      have hilt : i < gt.length := List.mem_range.mp hi
      rw [specRow, if_pos ⟨by omega, hilt⟩]
    · apply List.map_congr_left
      intro i hi
      have hmem := List.mem_range'_1.mp hi
      have h1 : ¬(i < mt.length ∧ i < gt.length) := by omega
      rw [specRow, if_neg h1, if_pos (by omega)]
  · rw [displayOf, if_neg (by omega), specView]
    rw [foldl_rows, foldl_rows, String.append_assoc]
    congr 1
    rw [Nat.min_eq_left h, Nat.max_eq_right h,
      range_split mt.length gt.length h, List.map_append, join_append]
    congr 2
    · apply List.map_congr_left
      intro i hi
      have hilt : i < mt.length := List.mem_range.mp hi
      rw [specRow, if_pos ⟨hilt, by omega⟩]
    · apply List.map_congr_left
      intro i hi
      have hmem := List.mem_range'_1.mp hi
      have h1 : ¬(i < mt.length ∧ i < gt.length) := by omega
      rw [specRow, if_neg h1, if_neg (by omega)]

/-- C9: `display` partitions the non-sentinel records into marks
(`is_rising = false`) and gaps (`is_rising = true`), sorts each list by
duration descending independently, and renders them as two aligned columns
with the shorter column padded for the excess rows of the longer one;
chronological order is discarded (only the multisets of durations
matter). -/
theorem display_ranked_columns (s : MorseDecoder) :
    (mark_times s).Perm
      (s.ring.filterMap (fun x => if x.1 ≠ u64MAX ∧ x.2 = false then some x.1 else none)) ∧
    List.Sorted (· ≥ ·) (mark_times s) ∧
    (gap_times s).Perm
      (s.ring.filterMap (fun x => if x.1 ≠ u64MAX ∧ x.2 = true then some x.1 else none)) ∧
    List.Sorted (· ≥ ·) (gap_times s) ∧
    display s = specView (mark_times s) (gap_times s) :=
  ⟨sortDesc_perm _, sortDesc_sorted _, sortDesc_perm _, sortDesc_sorted _,
    displayOf_eq_specView _ _⟩

/-- Overwriting a slot with two values the filter rejects gives the same
`filterMap` either way. -/
theorem filterMap_set_congr {α β : Type} (f : α → Option β) (a a' : α)
    (h1 : f a = none) (h2 : f a' = none) :
    ∀ (l : List α) (i : Nat), (l.set i a).filterMap f = (l.set i a').filterMap f := by
  intro l
  induction l with
  | nil => intro i; rfl
  | cons x l ih =>
    intro i
    cases i with
    | zero => simp [List.set_cons_zero, List.filterMap_cons, h1, h2]
    | succ i =>
      rw [List.set_cons_succ, List.set_cons_succ, List.filterMap_cons, List.filterMap_cons]
      cases hfx : f x
      · exact ih i
      · rw [ih i]

/-- `flatMap` respects pointwise equal functions. -/
theorem flatMap_congr {α β : Type} (l : List α) (f g : α → List β)
    (h : ∀ x ∈ l, f x = g x) : l.flatMap f = l.flatMap g := by
  induction l with
  | nil => rfl
  | cons x l ih =>
    rw [List.flatMap_cons, List.flatMap_cons, h x (List.mem_cons_self x l),
      ih (fun y hy => h y (List.mem_cons_of_mem x hy))]

set_option maxRecDepth 100000 in
/-- C10: a record whose duration is exactly `u64::MAX` is indistinguishable
from an unwritten slot. First conjunct: `tick` genuinely records such a
transition (duration `u64::MAX − 0` from time 0). Second: it yields no
token. Third and fourth: `decode` and `display` treat the slot exactly as
if it held the sentinel value `(u64::MAX, false)` of an unwritten slot, so
it contributes no token and no diagnostic row. -/
theorem max_duration_record_skipped (s : MorseDecoder) (i : Nat) (b : Bool)
    (st : DecoderSettings) (hlen : s.ring.length = 128) (hi : i < 128) :
    tick (MorseDecoder.new 0) u64MAX true = some
      { ring := initRing.set 1 (u64MAX, true), index := 1
      , last_time := u64MAX, last_on := true } ∧
    classifySlot (u64MAX, b) st = [] ∧
    decode { s with ring := s.ring.set i (u64MAX, b) } st
      = decode { s with ring := s.ring.set i (u64MAX, false) } st ∧
    display { s with ring := s.ring.set i (u64MAX, b) }
      = display { s with ring := s.ring.set i (u64MAX, false) } := by
  refine ⟨by decide, classifySlot_sentinel b st, ?_, ?_⟩
  · rw [decode, decode]
    apply flatMap_congr
    intro j _
    show classifySlot ((s.ring.set i (u64MAX, b)).getD j (u64MAX, false)) st
      = classifySlot ((s.ring.set i (u64MAX, false)).getD j (u64MAX, false)) st
    by_cases hji : i = j
    · subst hji
      rw [getD_set_self _ _ _ _ (by omega), getD_set_self _ _ _ _ (by omega)]
      rw [classifySlot_sentinel, classifySlot_sentinel]
    · rw [getD_set_ne _ _ _ _ _ hji, getD_set_ne _ _ _ _ _ hji]
  · have hm : mark_times { s with ring := s.ring.set i (u64MAX, b) }
        = mark_times { s with ring := s.ring.set i (u64MAX, false) } := by
      rw [mark_times, mark_times]
      rw [filterMap_set_congr
        (fun x => if x.1 ≠ u64MAX ∧ x.2 = false then some x.1 else none)
        (u64MAX, b) (u64MAX, false) (by simp) (by simp) s.ring i]
    have hg : gap_times { s with ring := s.ring.set i (u64MAX, b) }
        = gap_times { s with ring := s.ring.set i (u64MAX, false) } := by
      rw [gap_times, gap_times]
      rw [filterMap_set_congr
        (fun x => if x.1 ≠ u64MAX ∧ x.2 = true then some x.1 else none)
        (u64MAX, b) (u64MAX, false) (by simp) (by simp) s.ring i]
    rw [display, display, hm, hg]

set_option maxRecDepth 100000 in
/-- Witness: with slot 1 holding a recorded `(u64::MAX, true)` transition
and every other slot unwritten, `decode` returns no token and `display`
shows the bare header, exactly as for a fully sentinel ring. -/
theorem max_duration_record_skipped_witness :
    decode { MorseDecoder.new 0 with ring := initRing.set 1 (u64MAX, true) } ⟨300, 500, 2000⟩
      = [] ∧
    display { MorseDecoder.new 0 with ring := initRing.set 1 (u64MAX, true) }
      = "Durations (ms)\nMarks Gaps\n----- -----" := by
  have h := max_duration_record_skipped (MorseDecoder.new 0) 1 true ⟨300, 500, 2000⟩
    (by decide) (by decide)
  exact ⟨h.2.2.1.trans (by decide), h.2.2.2.trans (by decide)⟩

end Morse
